import Mathlib

/-!
Verification of the worker-pool / batch-admission core of
`astro-html-minifier-next`.

The development shallowly embeds:

* the `WorkerPool` / `MinifyHTMLWorkerPool` classes
  (`src/workerpool.ts`, `src/minify-html-worker-pool.ts`) as an explicit
  state machine `PoolState` with a step function `step` over pool events;
* the batch admission loop of the `astro:build:done` hook
  (`src/index.ts`) as a deterministic interpreter `admitLoop` over a
  virtual clock;
* `minifyHTMLFile` (`src/minify-html-file.ts` variant reproduced in
  `src/workerfunc.ts`) over a byte-list file model;
* the worker-thread message handlers (`src/minify-html-worker.ts` and the
  generic minify worker) as functions from a request to the list of
  messages posted back;
* the integration's worker-pool construction decision (`src/index.ts`).

The embedding follows the cooperative single-threaded event model of the
source: each JS event handler runs to completion atomically, and handlers
never interleave on the shared pool structures.
-/

namespace AstroHtmlMinifier

/-! ## Worker pool model

State of a `WorkerPool` / `MinifyHTMLWorkerPool` instance.  Workers and
callers are identified by natural numbers; `nextW`/`nextC` generate fresh
identities (in JS, object identity of `Worker` instances and of submitted
promises).  `pending` models the per-worker `_currentPromise` /
`_currentResolve`/`_currentReject` field: the association from a worker to
the caller whose settlement it currently owns.  `busy` is the set of
workers that have been posted a request and have not yet responded; the
worker-side handler posts exactly one response per request, so `message`
events are only enabled for busy workers.  `settled` is an append-only
log of settlements delivered to callers. -/

/-- How a caller's promise was settled. -/
inductive SettleKind where
  /-- Worker posted a success response. -/
  | success : SettleKind
  /-- Worker posted a domain `{error}` response. -/
  | execError : SettleKind
  /-- The worker's `error` event fired while the settlement was pending. -/
  | errorEvent : SettleKind
  /-- The worker exited with the given nonzero code while pending. -/
  | crash (code : Nat) : SettleKind
deriving DecidableEq, Repr

/-- State of the worker pool (`pool`, `idle`, `queue` fields of the class,
plus the per-worker pending-settlement fields and bookkeeping). -/
structure PoolState where
  /-- Configured capacity (`maxWorkers`). -/
  maxWorkers : Nat
  /-- The live set (`this.pool : Set<Worker>`), in insertion order. -/
  pool : List Nat
  /-- The idle list (`this.idle : Worker[]`). -/
  idle : List Nat
  /-- The waiting queue (`this.queue`), as the callers suspended in
  `getAvailableWorker`. -/
  queue : List Nat
  /-- Workers with an outstanding posted request (a `postMessage` whose
  response has not arrived). -/
  busy : List Nat
  /-- `worker._currentPromise`: worker ↦ caller owning its settlement. -/
  pending : List (Nat × Nat)
  /-- Append-only log of delivered settlements (caller, kind). -/
  settled : List (Nat × SettleKind)
  /-- Fresh worker-identity source. -/
  nextW : Nat
  /-- Fresh caller-identity source. -/
  nextC : Nat
deriving DecidableEq, Repr

/-- The freshly constructed pool: empty live set, idle list and queue. -/
def initPool (maxWorkers : Nat) : PoolState :=
  { maxWorkers := maxWorkers
    pool := []
    idle := []
    queue := []
    busy := []
    pending := []
    settled := []
    nextW := 0
    nextC := 0 }

/-- Look up the pending caller of worker `w` (first matching entry). -/
def lookupW : List (Nat × Nat) → Nat → Option Nat
  | [], _ => none
  | (w, c) :: r, x => if w = x then some c else lookupW r x

/-- Remove the first pending entry for worker `w`
(clearing `_currentPromise`). -/
def eraseW : List (Nat × Nat) → Nat → List (Nat × Nat)
  | [], _ => []
  | (w, c) :: r, x => if w = x then r else (w, c) :: eraseW r x

/-- Events driving the pool: a `submit` (`runTask` / `minifyHTMLFile`
call), a worker's `message`, `error` or `exit` event. -/
inductive Ev where
  /-- A new caller submits a job (`runTask` / pool `minifyHTMLFile`). -/
  | submit : Ev
  /-- Worker `w` posts its response; `ok` is true for a success response,
  false for a worker-reported `{error}` response. -/
  | message (w : Nat) (ok : Bool) : Ev
  /-- Worker `w` fires a bare `error` event. -/
  | error (w : Nat) : Ev
  /-- Worker `w` fires its `exit` event with the given exit code. -/
  | exit (w : Nat) (code : Nat) : Ev
deriving DecidableEq, Repr

/-- `releaseWorker`: hand the worker to the oldest waiter if any
(the waiter's continuation stores the pending settlement and posts its
request), otherwise push it onto the idle list. -/
def releaseWorker (s : PoolState) (w : Nat) : PoolState :=
  match s.queue with
  | c :: q =>
      { s with
        queue := q
        pending := (w, c) :: s.pending
        busy := w :: s.busy }
  | [] => { s with idle := s.idle ++ [w] }

/-- `removeWorker`: delete from the live set and, defensively, from the
idle list. -/
def removeWorker (s : PoolState) (w : Nat) : PoolState :=
  { s with
    pool := s.pool.erase w
    idle := s.idle.erase w
    busy := s.busy.erase w }

/-- One step of the pool, mirroring `getAvailableWorker` (for `submit`)
and the three worker event handlers installed there. -/
def step (s : PoolState) : Ev → PoolState
  | .submit =>
    let c := s.nextC
    match s.idle with
    | w :: rest =>
        -- idle worker available: shift it and hand it to the caller,
        -- whose continuation sets the pending settlement and posts.
        { s with
          idle := rest
          pending := (w, c) :: s.pending
          busy := w :: s.busy
          nextC := c + 1 }
    | [] =>
        if s.pool.length < s.maxWorkers then
          -- spawn a new worker, add it to the live set.
          { s with
            pool := s.pool ++ [s.nextW]
            pending := (s.nextW, c) :: s.pending
            busy := s.nextW :: s.busy
            nextW := s.nextW + 1
            nextC := c + 1 }
        else
          -- saturated: enqueue the caller's resolver.
          { s with
            queue := s.queue ++ [c]
            nextC := c + 1 }
  | .message w ok =>
    if w ∈ s.busy then
      let s1 := { s with busy := s.busy.erase w }
      let s2 :=
        match lookupW s1.pending w with
        | some c =>
            { s1 with
              settled :=
                (c, if ok then SettleKind.success else SettleKind.execError)
                  :: s1.settled
              pending := eraseW s1.pending w }
        | none => s1
      releaseWorker s2 w
    else s
  | .error w =>
    if w ∈ s.pool then
      match lookupW s.pending w with
      | some c =>
          { s with
            settled := (c, SettleKind.errorEvent) :: s.settled
            pending := eraseW s.pending w }
      | none => s
    else s
  | .exit w code =>
    if w ∈ s.pool then
      let s1 := removeWorker s w
      if code ≠ 0 then
        match lookupW s1.pending w with
        | some c =>
            { s1 with
              settled := (c, SettleKind.crash code) :: s1.settled
              pending := eraseW s1.pending w }
        | none => s1
      else s1
    else s

/-- Run a sequence of events from a state. -/
def runEvents (s : PoolState) : List Ev → PoolState
  | [] => s
  | e :: r => runEvents (step s e) r

/-- Number of settlements delivered to caller `c`. -/
def settleCount (s : PoolState) (c : Nat) : Nat :=
  (s.settled.map Prod.fst).count c

/-- All caller identities currently owed an outcome or already settled:
settled callers, pending callers, queued callers.  A caller's multiplicity
here is conserved by every pool event, which yields at-most-once
settlement. -/
def occList (s : PoolState) : List Nat :=
  s.settled.map Prod.fst ++ s.pending.map Prod.snd ++ s.queue

/-- Multiplicity of caller `c` across settled/pending/queued. -/
def callerOcc (s : PoolState) (c : Nat) : Nat :=
  (occList s).count c

/-- Caller `c` can no longer be settled: it is not queued, and every
pending entry for it names a worker that has left the live set, the busy
set and the idle list for good (its identity is below `nextW`, so it is
never respawned). -/
def DeadFor (s : PoolState) (c : Nat) : Prop :=
  c ∉ s.queue ∧ c < s.nextC ∧
    ∀ p ∈ s.pending, p.2 = c →
      p.1 ∉ s.pool ∧ p.1 ∉ s.busy ∧ p.1 ∉ s.idle ∧ p.1 < s.nextW

instance (s : PoolState) (c : Nat) : Decidable (DeadFor s c) := by
  unfold DeadFor; infer_instance

/-- Caller `c` is never settled in any continuation of state `s`. -/
def neverSettles (s : PoolState) (c : Nat) : Prop :=
  ∀ evs, settleCount (runEvents s evs) c = 0

/-! ## Batch admission controller model

The `astro:build:done` hook's task loop (`src/index.ts`), interpreted
deterministically over a virtual clock.  A job thunk is abstracted by its
duration (the virtual time between its start and its settlement) and
whether it rejects; its rejection cause is identified with its index.
Time advances only at `await` points (`Promise.race` in the loop,
`Promise.all` after it), matching the single-threaded event-loop
semantics: completion handlers run only while the loop is suspended. -/

/-- A batch job thunk: duration until settlement, and whether it fails. -/
structure BatchJob where
  /-- Virtual time from start to settlement. -/
  dur : Nat
  /-- Whether the job rejects (its cause is its index). -/
  fails : Bool
deriving DecidableEq, Repr

/-- An in-flight entry: job index, absolute completion time, fails flag.
Successes are deleted from `executingTasks` by their `then` handler;
failures remain in the set (the `catch` handler rethrows, it does not
delete). -/
abbrev Task := Nat × Nat × Bool

/-- The first entry of the list achieving the minimal completion time:
the promise `Promise.race` / `Promise.all` observes settling first. -/
def earliestTask : List Task → Option Task
  | [] => none
  | e :: r =>
    match earliestTask r with
    | none => some e
    | some e' => if e'.2.1 < e.2.1 then some e' else some e

/-- Run the completion handlers for every task settling at time `t`:
successes are removed from the in-flight set, the first failure (in set
order) sets the abort flag if it is not already set
(`if (!signal.aborted) controller.abort(e)`). -/
def processAt (infl : List Task) (t : Nat) (abort? : Option Nat) :
    List Task × Option Nat :=
  (infl.filter fun e => !(e.2.1 = t && !e.2.2),
   match abort? with
   | some c => some c
   | none => (infl.find? fun e => e.2.1 = t && e.2.2).map Prod.fst)

/-- Observable events of a batch run: a thunk starting, and the abort
flag being set with a recorded cause. -/
inductive BEv where
  /-- Job `i`'s thunk was started at time `t`. -/
  | start (i : Nat) (t : Nat) : BEv
  /-- The cancellation flag was set to cause `c` at time `t`. -/
  | abortSet (c : Nat) (t : Nat) : BEv
deriving DecidableEq, Repr

/-- Outcome of the hook's batch: resolution or rejection, with the
virtual time at which the hook itself settles. -/
inductive BatchResult where
  /-- All jobs succeeded; the hook resolves at `time`. -/
  | ok (time : Nat) : BatchResult
  /-- The hook rejects with `cause` at `time`. -/
  | failed (cause : Nat) (time : Nat) : BatchResult
deriving DecidableEq, Repr

/-- `await Promise.all(executingTasks)` after the loop: rejects with the
first rejection among the remaining tasks, at its time; otherwise
resolves once the last one finishes.  The rejecting task's `catch`
handler records the cause first if the flag is still unset. -/
def drainAll (infl : List Task) (abort? : Option Nat) (now : Nat) :
    BatchResult × List BEv :=
  match earliestTask (infl.filter fun e => e.2.2) with
  | some e =>
      (BatchResult.failed e.1 e.2.1,
       match abort? with
       | none => [BEv.abortSet e.1 e.2.1]
       | some _ => [])
  | none => (BatchResult.ok (infl.foldl (fun m x => max m x.2.1) now), [])

/-- The admission loop over the (indexed) job thunks, mirroring
`for (const task of tasks) { ... }`: start the thunk, add its promise to
the in-flight set, `await Promise.race` once the set size reaches the
limit, then `if (signal.aborted) throw signal.reason`.  A rejection
observed by the `race` is itself thrown from the loop. -/
def admitLoop (limit : Nat) :
    List (Nat × BatchJob) → List Task → Option Nat → Nat →
    BatchResult × List BEv
  | [], infl, abort?, now => drainAll infl abort? now
  | (i, j) :: rest, infl, abort?, now =>
    let infl1 := infl ++ [(i, now + j.dur, j.fails)]
    if limit ≤ infl1.length then
      match earliestTask infl1 with
      | none => (BatchResult.ok now, [BEv.start i now])
      | some win =>
        let t := win.2.1
        let pa := processAt infl1 t abort?
        let alog : List BEv :=
          match abort?, pa.2 with
          | none, some c => [BEv.abortSet c t]
          | _, _ => []
        if win.2.2 then
          -- the race rejects with the winner's cause; the loop throws it
          -- before draining anything else.
          (BatchResult.failed win.1 t, BEv.start i now :: alog)
        else
          match pa.2 with
          | some c => (BatchResult.failed c t, BEv.start i now :: alog)
          | none =>
            let rec' := admitLoop limit rest pa.1 none t
            (rec'.1, BEv.start i now :: (alog ++ rec'.2))
    else
      match abort? with
      | some c => (BatchResult.failed c now, [BEv.start i now])
      | none =>
        let rec' := admitLoop limit rest infl1 none now
        (rec'.1, BEv.start i now :: rec'.2)

/-- The whole batch: index the thunks, run the loop from an empty
in-flight set at time 0 with the flag unset. -/
def runBatch (jobs : List BatchJob) (limit : Nat) :
    BatchResult × List BEv :=
  admitLoop limit jobs.enum [] none 0

/-- The time at which job `i`'s thunk was started, per the run's log. -/
def startTimeOf (log : List BEv) (i : Nat) : Option Nat :=
  log.findSome? fun e =>
    match e with
    | BEv.start j t => if j = i then some t else none
    | _ => none

/-- No `start` event appears in the log; used after an `abortSet`. -/
def startFree (log : List BEv) : Bool :=
  log.all fun e =>
    match e with
    | BEv.start _ _ => false
    | _ => true

/-- After the first `abortSet` event, no further thunk is started. -/
def noStartAfterAbort : List BEv → Bool
  | [] => true
  | BEv.abortSet _ _ :: r => startFree r
  | BEv.start _ _ :: r => noStartAfterAbort r

/-- Number of `abortSet` events in the log (the flag is monotone: the
handlers set it only when it is still unset). -/
def abortCount (log : List BEv) : Nat :=
  (log.filter fun e =>
    match e with
    | BEv.abortSet _ _ => true
    | _ => false).length

/-! ## `minifyHTMLFile` model

`minifyHTMLFile` (`src/minify-html-file.ts`, reproduced in
`src/workerfunc.ts`): read the file, minify, and write the minified text
back only when it is strictly smaller, otherwise return the `false`
"no savings" sentinel.  Files are byte lists, so `List.length` is
`Buffer.byteLength`; the opaque external minifier may fail.  The wall
clock `time` field of the success record is omitted. -/

/-- Result of `minifyHTMLFile`: the `false` sentinel or the savings
record. -/
inductive MinifyHTMLFileResult where
  /-- `return false`: minification produced no byte savings. -/
  | noSavings : MinifyHTMLFileResult
  /-- `return (saved savings)`: the file shrank by `savings` bytes. -/
  | saved (savings : Nat) : MinifyHTMLFileResult
deriving DecidableEq, Repr

/-- The observable outcome of one `minifyHTMLFile` call: its returned
result, the file content afterwards, and whether `writeFile` ran. -/
structure MinifyFileOutcome where
  /-- The value returned to the caller. -/
  result : MinifyHTMLFileResult
  /-- The file's content after the call. -/
  content : List Nat
  /-- Whether `writeFile` was invoked. -/
  wrote : Bool
deriving DecidableEq, Repr

/-- `minifyHTMLFile`: `readFile`, `minify`, then
`if (savings <= 0) return false` else `writeFile`.  `minify` is the
opaque `html-minifier-next` minifier; `content` is the file's bytes. -/
def minifyHTMLFile (minify : List Nat → Except String (List Nat))
    (content : List Nat) : Except String MinifyFileOutcome :=
  match minify content with
  | Except.error e => Except.error e
  | Except.ok minified =>
    let savings : Int := (content.length : Int) - (minified.length : Int)
    if savings ≤ 0 then
      Except.ok ⟨MinifyHTMLFileResult.noSavings, content, false⟩
    else
      Except.ok ⟨MinifyHTMLFileResult.saved savings.toNat, minified, true⟩

/-! ## Worker-thread message handler models

Each worker thread installs a `parentPort` message handler.  The generic
minify worker (`src/minify-html-worker.ts` in the `{html, options}`
variants) posts `{result: await minifyHTML(...)}` on success and
`{error}` on a caught exception.  The file-granular worker
(`src/minify-html-worker.ts` in the `MinifyHTMLWorkerInput` variant)
posts the bare `MinifyHTMLFileResult` on success — no `result` tag — and
`{error}` on a caught exception. -/

/-- A message a worker posts back to the parent. -/
inductive WorkerMsg (T : Type) (E : Type) where
  /-- A `{result: v}` tagged success response. -/
  | result (v : T) : WorkerMsg T E
  /-- An `{error: e}` tagged failure response. -/
  | error (e : E) : WorkerMsg T E
  /-- An untagged payload posted as-is. -/
  | raw (v : T) : WorkerMsg T E
deriving DecidableEq, Repr

/-- Whether a message is one of the two tagged response shapes. -/
def WorkerMsg.isTagged : WorkerMsg T E → Bool
  | WorkerMsg.result _ => true
  | WorkerMsg.error _ => true
  | WorkerMsg.raw _ => false

/-- Whether a message is the `{error}` shape. -/
def WorkerMsg.isError : WorkerMsg T E → Bool
  | WorkerMsg.error _ => true
  | _ => false

/-- The generic minify worker's message handler: the messages it posts
for one received request.  `minify` is the (possibly throwing)
minification routine; thrown errors are caught and posted as `{error}`. -/
def genericWorkerOnMessage (minify : I → Except E T) (req : I) :
    List (WorkerMsg T E) :=
  match minify req with
  | Except.ok v => [WorkerMsg.result v]
  | Except.error e => [WorkerMsg.error e]

/-- The file-granular worker's message handler
(`src/minify-html-worker.ts`): posts
`(await minifyHTMLFile(...)) satisfies MinifyHTMLWorkerOutput` — the bare
result, untagged — on success, `{error}` on a caught exception. -/
def minifyHTMLWorkerOnMessage
    (run : String → Except E MinifyHTMLFileResult) (htmlFile : String) :
    List (WorkerMsg MinifyHTMLFileResult E) :=
  match run htmlFile with
  | Except.ok v => [WorkerMsg.raw v]
  | Except.error e => [WorkerMsg.error e]

/-! ## Worker-pool construction decision

`src/index.ts` (`astro:build:done` hook): resolve `maxWorkers` with the
destructuring default `Math.max(1, availableParallelism - 1)`, and build
a `MinifyHTMLWorkerPool` only when `maxWorkers > 0` and the minifier
options survive `structuredClone`.  Every task closure picks its path
from the presence of the pool. -/

/-- The `maxWorkers` destructuring default. -/
def defaultMaxWorkers (availableParallelism : Int) : Int :=
  max 1 (availableParallelism - 1)

/-- `const { maxWorkers = Math.max(1, availableParallelism - 1) } =
options`. -/
def resolveMaxWorkers (maxWorkersOption : Option Int)
    (availableParallelism : Int) : Int :=
  maxWorkersOption.getD (defaultMaxWorkers availableParallelism)

/-- `maxWorkers > 0 && isTransferable(minifyHtmlOptions)`: whether a
worker pool is constructed. -/
def createsWorkerPool (maxWorkersOption : Option Int)
    (availableParallelism : Int) (transferable : Bool) : Bool :=
  decide (0 < resolveMaxWorkers maxWorkersOption availableParallelism)
    && transferable

/-- Where one file's minification runs. -/
inductive MinifyPath where
  /-- `workerPool.minifyHTMLFile(assetPath)`. -/
  | pool : MinifyPath
  /-- `minifyHTMLFile(assetPath, minifyHtmlOptions, signal)` on the main
  thread. -/
  | mainThread : MinifyPath
deriving DecidableEq, Repr

/-- The execution path each task closure takes
(`workerPool ? ... : ...`). -/
def taskPaths (files : List String) (maxWorkersOption : Option Int)
    (availableParallelism : Int) (transferable : Bool) :
    List (String × MinifyPath) :=
  files.map fun f =>
    (f,
     if createsWorkerPool maxWorkersOption availableParallelism transferable
     then MinifyPath.pool
     else MinifyPath.mainThread)

/-! ## Helper lemmas on the pending-settlement association -/

theorem lookupW_mem {p : List (Nat × Nat)} {w c : Nat}
    (h : lookupW p w = some c) : (w, c) ∈ p := by
  induction p with
  | nil => simp [lookupW] at h
  | cons e r ih =>
    obtain ⟨w', c'⟩ := e
    by_cases hw : w' = w
    · simp [lookupW, hw] at h
      simp [hw, h]
    · simp [lookupW, hw] at h
      exact List.mem_cons_of_mem _ (ih h)

theorem eraseW_sublist (p : List (Nat × Nat)) (w : Nat) :
    List.Sublist (eraseW p w) p := by
  induction p with
  | nil => simp [eraseW]
  | cons e r ih =>
    obtain ⟨w', c'⟩ := e
    by_cases hw : w' = w
    · simp only [eraseW, if_pos hw]
      exact List.sublist_cons_self _ _
    · simp only [eraseW, if_neg hw]
      exact ih.cons₂ _

theorem lookupW_eraseW_of_nodup {p : List (Nat × Nat)} {w : Nat}
    (h : (p.map Prod.fst).Nodup) : lookupW (eraseW p w) w = none := by
  induction p with
  | nil => simp [eraseW, lookupW]
  | cons e r ih =>
    obtain ⟨w', c'⟩ := e
    simp only [List.map_cons, List.nodup_cons] at h
    by_cases hw : w' = w
    · subst hw
      simp only [eraseW, if_pos rfl]
      cases hr : lookupW r w' with
      | none => exact hr
      | some c =>
        exact absurd (List.mem_map_of_mem Prod.fst (lookupW_mem hr)) h.1
    · simp [eraseW, hw, lookupW, ih h.2]

theorem count_map_snd_eraseW {p : List (Nat × Nat)} {w c : Nat}
    (h : lookupW p w = some c) (x : Nat) :
    (p.map Prod.snd).count x =
      ((eraseW p w).map Prod.snd).count x + (if c = x then 1 else 0) := by
  induction p with
  | nil => simp [lookupW] at h
  | cons e r ih =>
    obtain ⟨w', c'⟩ := e
    by_cases hw : w' = w
    · simp only [lookupW, if_pos hw, Option.some.injEq] at h
      subst h
      simp only [eraseW, if_pos hw, List.map_cons, List.count_cons,
        beq_iff_eq]
    · simp only [lookupW, if_neg hw] at h
      simp only [eraseW, if_neg hw, List.map_cons, List.count_cons, ih h,
        beq_iff_eq]
      split_ifs <;> omega

/-! ## Conservation of caller multiplicity (exactly-once analysis) -/

theorem callerOcc_releaseWorker (s : PoolState) (w c : Nat) :
    callerOcc (releaseWorker s w) c = callerOcc s c := by
  unfold releaseWorker
  cases hq : s.queue with
  | nil => simp [callerOcc, occList, hq]
  | cons c' q =>
    simp [callerOcc, occList, hq, List.count_append, List.count_cons]
    split_ifs <;> omega

theorem callerOcc_step (s : PoolState) (e : Ev) (c : Nat) :
    callerOcc (step s e) c =
      callerOcc s c + (if e = Ev.submit ∧ c = s.nextC then 1 else 0) := by
  cases e with
  | submit =>
    unfold step
    cases hi : s.idle with
    | cons w rest =>
      simp [callerOcc, occList, List.count_append, List.count_cons]
      split_ifs <;> simp_all <;> omega
    | nil =>
      by_cases hlt : s.pool.length < s.maxWorkers
      · simp only [if_pos hlt]
        simp [callerOcc, occList, List.count_append, List.count_cons]
        split_ifs <;> simp_all <;> omega
      · simp only [if_neg hlt]
        simp [callerOcc, occList, List.count_append, List.count_cons]
        split_ifs <;> simp_all <;> omega
  | message w ok =>
    simp only [step]
    by_cases hb : w ∈ s.busy
    · simp only [if_pos hb]
      cases hl : lookupW s.pending w with
      | none =>
        simp only [hl]
        rw [callerOcc_releaseWorker]
        simp [callerOcc, occList]
      | some c0 =>
        simp only [hl]
        rw [callerOcc_releaseWorker]
        simp only [callerOcc, occList, List.map_cons, List.count_append,
          List.count_cons, count_map_snd_eraseW hl c]
        split_ifs <;> simp_all <;> omega
    · simp [if_neg hb]
  | error w =>
    simp only [step]
    by_cases hp : w ∈ s.pool
    · simp only [if_pos hp]
      cases hl : lookupW s.pending w with
      | none => simp [hl]
      | some c0 =>
        simp only [hl]
        simp only [callerOcc, occList, List.map_cons, List.count_append,
          List.count_cons, count_map_snd_eraseW hl c]
        split_ifs <;> simp_all <;> omega
    · simp [if_neg hp]
  | exit w code =>
    simp only [step]
    by_cases hp : w ∈ s.pool
    · simp only [if_pos hp]
      by_cases hz : code ≠ 0
      · simp only [if_pos hz]
        cases hl : lookupW (removeWorker s w).pending w with
        | none => simp [hl, removeWorker, callerOcc, occList]
        | some c0 =>
          simp only [hl]
          have hl' : lookupW s.pending w = some c0 := hl
          simp only [callerOcc, occList, removeWorker, List.map_cons,
            List.count_append, List.count_cons, count_map_snd_eraseW hl' c]
          split_ifs <;> simp_all <;> omega
      · simp [if_neg hz, removeWorker, callerOcc, occList]
    · simp [if_neg hp]

/-! ## Frame lemmas -/

theorem releaseWorker_settled (s : PoolState) (w : Nat) :
    (releaseWorker s w).settled = s.settled := by
  unfold releaseWorker
  cases s.queue <;> rfl

theorem releaseWorker_pool (s : PoolState) (w : Nat) :
    (releaseWorker s w).pool = s.pool := by
  unfold releaseWorker
  cases s.queue <;> rfl

theorem releaseWorker_nextC (s : PoolState) (w : Nat) :
    (releaseWorker s w).nextC = s.nextC := by
  unfold releaseWorker
  cases s.queue <;> rfl

theorem releaseWorker_nextW (s : PoolState) (w : Nat) :
    (releaseWorker s w).nextW = s.nextW := by
  unfold releaseWorker
  cases s.queue <;> rfl

theorem releaseWorker_maxWorkers (s : PoolState) (w : Nat) :
    (releaseWorker s w).maxWorkers = s.maxWorkers := by
  unfold releaseWorker
  cases s.queue <;> rfl

theorem step_maxWorkers (s : PoolState) (e : Ev) :
    (step s e).maxWorkers = s.maxWorkers := by
  cases e with
  | submit =>
    simp only [step]
    cases s.idle
    · dsimp only
      split_ifs <;> rfl
    · rfl
  | message w ok =>
    simp only [step]
    by_cases hb : w ∈ s.busy
    · simp only [if_pos hb]
      cases hl : lookupW s.pending w <;>
        simp only [hl, releaseWorker_maxWorkers]
    · simp [if_neg hb]
  | error w =>
    simp only [step]
    by_cases hp : w ∈ s.pool
    · simp only [if_pos hp]
      cases hl : lookupW s.pending w <;> simp [hl]
    · simp [if_neg hp]
  | exit w code =>
    simp only [step]
    by_cases hp : w ∈ s.pool
    · simp only [if_pos hp]
      by_cases hz : code ≠ 0
      · simp only [if_pos hz]
        cases hl : lookupW (removeWorker s w).pending w <;>
          simp [hl, removeWorker]
      · simp [if_neg hz, removeWorker]
    · simp [if_neg hp]

theorem nextC_step (s : PoolState) (e : Ev) :
    (step s e).nextC = s.nextC + (if e = Ev.submit then 1 else 0) := by
  cases e with
  | submit =>
    simp only [step]
    cases s.idle
    · dsimp only
      split_ifs <;> rfl
    · rfl
  | message w ok =>
    simp only [step]
    by_cases hb : w ∈ s.busy
    · simp only [if_pos hb]
      cases hl : lookupW s.pending w <;>
        simp [hl, releaseWorker_nextC]
    · simp [if_neg hb]
  | error w =>
    simp only [step]
    by_cases hp : w ∈ s.pool
    · simp only [if_pos hp]
      cases hl : lookupW s.pending w <;> simp [hl]
    · simp [if_neg hp]
  | exit w code =>
    simp only [step]
    by_cases hp : w ∈ s.pool
    · simp only [if_pos hp]
      by_cases hz : code ≠ 0
      · simp only [if_pos hz]
        cases hl : lookupW (removeWorker s w).pending w <;>
          simp [hl, removeWorker]
      · simp [if_neg hz, removeWorker]
    · simp [if_neg hp]

/-! ## At-most-once settlement -/

theorem settleCount_le_callerOcc (s : PoolState) (c : Nat) :
    settleCount s c ≤ callerOcc s c := by
  simp only [settleCount, callerOcc, occList, List.count_append]
  omega

/-- Each caller occurs at most once across settled/pending/queued, and
callers not yet generated occur nowhere. -/
def OccBound (s : PoolState) : Prop :=
  ∀ c, callerOcc s c ≤ 1 ∧ (s.nextC ≤ c → callerOcc s c = 0)

theorem occBound_initPool (m : Nat) : OccBound (initPool m) := by
  intro c
  simp [callerOcc, occList, initPool]

theorem occBound_step {s : PoolState} (h : OccBound s) (e : Ev) :
    OccBound (step s e) := by
  intro c
  have hc := callerOcc_step s e c
  have hn := nextC_step s e
  constructor
  · by_cases hsub : e = Ev.submit ∧ c = s.nextC
    · rw [hc, if_pos hsub, (h c).2 (le_of_eq hsub.2.symm)]
    · rw [hc, if_neg hsub]
      have := (h c).1
      omega
  · intro hge
    rw [hn] at hge
    by_cases hsub : e = Ev.submit ∧ c = s.nextC
    · rw [hsub.1] at hge
      simp at hge
      omega
    · rw [hc, if_neg hsub]
      refine (h c).2 ?_
      split_ifs at hge <;> omega

theorem occBound_runEvents {s : PoolState} (h : OccBound s)
    (evs : List Ev) : OccBound (runEvents s evs) := by
  induction evs generalizing s with
  | nil => exact h
  | cons e r ih => exact ih (occBound_step h e)

theorem settle_at_most_once (m : Nat) (evs : List Ev) (c : Nat) :
    settleCount (runEvents (initPool m) evs) c ≤ 1 :=
  le_trans (settleCount_le_callerOcc _ _)
    ((occBound_runEvents (occBound_initPool m) evs c).1)

/-! ## Permanently lost callers -/

theorem deadFor_releaseWorker {s : PoolState} {w c : Nat}
    (hq : c ∉ s.queue) (hc : c < s.nextC)
    (hp : ∀ p ∈ s.pending, p.2 = c →
      p.1 ∉ s.pool ∧ p.1 ∉ s.busy ∧ p.1 ∉ s.idle ∧ p.1 < s.nextW)
    (hw : ∀ p ∈ s.pending, p.2 = c → p.1 ≠ w) :
    DeadFor (releaseWorker s w) c := by
  unfold releaseWorker
  split
  next c1 q1 hqq =>
    have hc1 : c1 ≠ c := fun he =>
      hq (hqq ▸ (he ▸ List.mem_cons_self c1 q1))
    refine ⟨?_, hc, ?_⟩
    · intro hm
      exact hq (hqq ▸ List.mem_cons_of_mem _ hm)
    · intro p hpm hp2
      rcases List.mem_cons.mp hpm with hpe | hpm'
      · rw [hpe] at hp2
        exact absurd hp2 hc1
      · have hold := hp p hpm' hp2
        refine ⟨hold.1, ?_, hold.2.2.1, hold.2.2.2⟩
        intro hm
        rcases List.mem_cons.mp hm with he | hm'
        · exact hw p hpm' hp2 he
        · exact hold.2.1 hm'
  next hqq =>
    refine ⟨hq, hc, ?_⟩
    intro p hpm hp2
    have hold := hp p hpm hp2
    refine ⟨hold.1, hold.2.1, ?_, hold.2.2.2⟩
    intro hm
    rcases List.mem_append.mp hm with hm' | hm'
    · exact hold.2.2.1 hm'
    · exact hw p hpm hp2 (List.mem_singleton.mp hm')

theorem deadFor_step {s : PoolState} {c : Nat} (h : DeadFor s c) (e : Ev) :
    DeadFor (step s e) c ∧ settleCount (step s e) c = settleCount s c := by
  obtain ⟨hq, hc, hp⟩ := h
  cases e with
  | submit =>
    refine ⟨?_, ?_⟩
    · cases hi : s.idle with
      | cons w rest =>
        simp only [step, hi]
        refine ⟨hq, Nat.lt_succ_of_lt hc, ?_⟩
        intro p hpm hp2
        rcases List.mem_cons.mp hpm with hpe | hpm'
        · rw [hpe] at hp2
          have h2 : s.nextC = c := hp2
          omega
        · have hold := hp p hpm' hp2
          have hwni : w ∈ s.idle := by
            rw [hi]
            exact List.mem_cons_self _ _
          have hpw : p.1 ≠ w := fun he => hold.2.2.1 (he ▸ hwni)
          refine ⟨hold.1, ?_, ?_, hold.2.2.2⟩
          · intro hmem
            rcases List.mem_cons.mp hmem with he | hm
            · exact hpw he
            · exact hold.2.1 hm
          · intro hmem
            exact hold.2.2.1 (by rw [hi]; exact List.mem_cons_of_mem _ hmem)
      | nil =>
        simp only [step, hi]
        by_cases hlt : s.pool.length < s.maxWorkers
        · simp only [if_pos hlt]
          refine ⟨hq, Nat.lt_succ_of_lt hc, ?_⟩
          intro p hpm hp2
          rcases List.mem_cons.mp hpm with hpe | hpm'
          · rw [hpe] at hp2
            have h2 : s.nextC = c := hp2
            omega
          · have hold := hp p hpm' hp2
            have hpw : p.1 ≠ s.nextW := by
              have h5 := hold.2.2.2
              omega
            refine ⟨?_, ?_, ?_, Nat.lt_succ_of_lt hold.2.2.2⟩
            · intro hmem
              rcases List.mem_append.mp hmem with hm | hm
              · exact hold.1 hm
              · exact hpw (List.mem_singleton.mp hm)
            · intro hmem
              rcases List.mem_cons.mp hmem with he | hm
              · exact hpw he
              · exact hold.2.1 hm
            · exact List.not_mem_nil _
        · simp only [if_neg hlt]
          refine ⟨?_, Nat.lt_succ_of_lt hc, ?_⟩
          · intro hmem
            rcases List.mem_append.mp hmem with hm | hm
            · exact hq hm
            · have := List.mem_singleton.mp hm
              omega
          · intro p hpm hp2
            have hold := hp p hpm hp2
            exact ⟨hold.1, hold.2.1, List.not_mem_nil _, hold.2.2.2⟩
    · cases hi : s.idle with
      | cons w rest => simp only [step, hi, settleCount]
      | nil =>
        simp only [step, hi, settleCount]
        by_cases hlt : s.pool.length < s.maxWorkers
        · simp [if_pos hlt]
        · simp [if_neg hlt]
  | message w ok =>
    by_cases hb : w ∈ s.busy
    · have hpw : ∀ p ∈ s.pending, p.2 = c → p.1 ≠ w := by
        intro p hpm hp2 he
        exact (hp p hpm hp2).2.1 (he ▸ hb)
      simp only [step, if_pos hb]
      cases hl : lookupW s.pending w with
      | none =>
        simp only [hl]
        constructor
        · exact deadFor_releaseWorker hq hc
            (fun p hpm hp2 => ⟨(hp p hpm hp2).1,
              fun hm => (hp p hpm hp2).2.1 (List.mem_of_mem_erase hm),
              (hp p hpm hp2).2.2.1, (hp p hpm hp2).2.2.2⟩)
            hpw
        · rw [settleCount, releaseWorker_settled]
          rfl
      | some c0 =>
        have hc0 : c0 ≠ c := by
          intro he
          exact (hp _ (lookupW_mem hl) (by rw [he])).2.1 hb
        simp only [hl]
        constructor
        · refine deadFor_releaseWorker hq hc ?_ ?_
          · intro p hpm hp2
            have hpm' := (eraseW_sublist s.pending w).subset hpm
            have hold := hp p hpm' hp2
            exact ⟨hold.1,
              fun hm => hold.2.1 (List.mem_of_mem_erase hm),
              hold.2.2.1, hold.2.2.2⟩
          · intro p hpm hp2
            exact hpw p ((eraseW_sublist s.pending w).subset hpm) hp2
        · rw [settleCount, releaseWorker_settled]
          simp [settleCount, List.count_cons, hc0]
    · simp only [step, if_neg hb]
      exact ⟨⟨hq, hc, hp⟩, by trivial⟩
  | error w =>
    by_cases hpl : w ∈ s.pool
    · simp only [step, if_pos hpl]
      cases hl : lookupW s.pending w with
      | none => exact ⟨⟨hq, hc, hp⟩, by trivial⟩
      | some c0 =>
        have hc0 : c0 ≠ c := by
          intro he
          exact (hp _ (lookupW_mem hl) (by rw [he])).1 hpl
        refine ⟨⟨hq, hc, ?_⟩, by simp [settleCount, List.count_cons, hc0]⟩
        intro p hpm hp2
        exact hp p ((eraseW_sublist s.pending w).subset hpm) hp2
    · simp only [step, if_neg hpl]
      exact ⟨⟨hq, hc, hp⟩, by trivial⟩
  | exit w code =>
    by_cases hpl : w ∈ s.pool
    · simp only [step, if_pos hpl]
      by_cases hz : code ≠ 0
      · simp only [if_pos hz]
        cases hl : lookupW (removeWorker s w).pending w with
        | none =>
          simp only [hl]
          refine ⟨⟨hq, hc, ?_⟩, rfl⟩
          intro p hpm hp2
          have hold := hp p hpm hp2
          exact ⟨fun hm => hold.1 (List.mem_of_mem_erase hm),
            fun hm => hold.2.1 (List.mem_of_mem_erase hm),
            fun hm => hold.2.2.1 (List.mem_of_mem_erase hm), hold.2.2.2⟩
        | some c0 =>
          have hl' : lookupW s.pending w = some c0 := hl
          have hc0 : c0 ≠ c := by
            intro he
            exact (hp _ (lookupW_mem hl') (by rw [he])).1 hpl
          simp only [hl]
          refine ⟨⟨hq, hc, ?_⟩, by
            simp [settleCount, removeWorker, List.count_cons, hc0]⟩
          intro p hpm hp2
          have hpm' := (eraseW_sublist _ w).subset hpm
          have hold := hp p hpm' hp2
          exact ⟨fun hm => hold.1 (List.mem_of_mem_erase hm),
            fun hm => hold.2.1 (List.mem_of_mem_erase hm),
            fun hm => hold.2.2.1 (List.mem_of_mem_erase hm), hold.2.2.2⟩
      · simp only [if_neg hz]
        refine ⟨⟨hq, hc, ?_⟩, rfl⟩
        intro p hpm hp2
        have hold := hp p hpm hp2
        exact ⟨fun hm => hold.1 (List.mem_of_mem_erase hm),
          fun hm => hold.2.1 (List.mem_of_mem_erase hm),
          fun hm => hold.2.2.1 (List.mem_of_mem_erase hm), hold.2.2.2⟩
    · simp only [step, if_neg hpl]
      exact ⟨⟨hq, hc, hp⟩, by trivial⟩

theorem deadFor_runEvents {s : PoolState} {c : Nat} (h : DeadFor s c)
    (evs : List Ev) :
    settleCount (runEvents s evs) c = settleCount s c := by
  induction evs generalizing s with
  | nil => rfl
  | cons e r ih =>
    have hstep := deadFor_step h e
    rw [runEvents, ih hstep.1, hstep.2]

/-! ## Capacity and queue invariants -/

theorem step_pool_le {s : PoolState} (h : s.pool.length ≤ s.maxWorkers)
    (e : Ev) : (step s e).pool.length ≤ (step s e).maxWorkers := by
  rw [step_maxWorkers]
  cases e with
  | submit =>
    cases hi : s.idle with
    | cons w rest => simpa only [step, hi] using h
    | nil =>
      simp only [step, hi]
      by_cases hlt : s.pool.length < s.maxWorkers
      · simp only [if_pos hlt, List.length_append, List.length_singleton]
        omega
      · simpa only [if_neg hlt] using h
  | message w ok =>
    simp only [step]
    by_cases hb : w ∈ s.busy
    · simp only [if_pos hb]
      cases hl : lookupW s.pending w <;>
        simp only [hl, releaseWorker_pool] <;> exact h
    · simpa only [if_neg hb] using h
  | error w =>
    simp only [step]
    by_cases hp : w ∈ s.pool
    · simp only [if_pos hp]
      cases hl : lookupW s.pending w <;> simp only [hl] <;> exact h
    · simpa only [if_neg hp] using h
  | exit w code =>
    have hle : (s.pool.erase w).length ≤ s.pool.length :=
      (List.erase_sublist w s.pool).length_le
    simp only [step]
    by_cases hp : w ∈ s.pool
    · simp only [if_pos hp]
      by_cases hz : code ≠ 0
      · simp only [if_pos hz]
        cases hl : lookupW (removeWorker s w).pending w <;>
          simp only [hl, removeWorker] <;> omega
      · simp only [if_neg hz, removeWorker]
        omega
    · simpa only [if_neg hp] using h

theorem runEvents_maxWorkers (s : PoolState) (evs : List Ev) :
    (runEvents s evs).maxWorkers = s.maxWorkers := by
  induction evs generalizing s with
  | nil => rfl
  | cons e r ih => rw [runEvents, ih, step_maxWorkers]

theorem runEvents_pool_le {s : PoolState}
    (h : s.pool.length ≤ s.maxWorkers) (evs : List Ev) :
    (runEvents s evs).pool.length ≤ (runEvents s evs).maxWorkers := by
  induction evs generalizing s with
  | nil => exact h
  | cons e r ih => exact ih (step_pool_le h e)

/-- The part of the pool data-model invariant governing the waiting
queue: it is non-empty only at full capacity with an empty idle list. -/
def QueueInv (s : PoolState) : Prop :=
  s.queue ≠ [] → s.pool.length = s.maxWorkers ∧ s.idle = []

theorem queueInv_step_no_exit {s : PoolState} (h1 : QueueInv s)
    (h2 : s.pool.length ≤ s.maxWorkers) {e : Ev}
    (he : ∀ w code, e ≠ Ev.exit w code) : QueueInv (step s e) := by
  cases e with
  | submit =>
    cases hi : s.idle with
    | cons w rest =>
      simp only [step, hi]
      intro hne
      have hq := h1 hne
      rw [hi] at hq
      exact absurd hq.2 (by simp)
    | nil =>
      simp only [step, hi]
      by_cases hlt : s.pool.length < s.maxWorkers
      · simp only [if_pos hlt]
        intro hne
        have hq := h1 hne
        omega
      · simp only [if_neg hlt]
        intro _
        refine ⟨?_, rfl⟩
        show s.pool.length = s.maxWorkers
        omega
  | message w ok =>
    simp only [step]
    by_cases hb : w ∈ s.busy
    · simp only [if_pos hb]
      have hrel : ∀ s2 : PoolState, s2.queue = s.queue →
          s2.pool = s.pool → s2.idle = s.idle →
          s2.maxWorkers = s.maxWorkers → QueueInv (releaseWorker s2 w) := by
        intro s2 hq hp hidle hm
        unfold releaseWorker
        split
        next c1 q1 hqq =>
          intro hne
          have hold := h1 (by rw [← hq, hqq]; simp)
          constructor
          · show s2.pool.length = s2.maxWorkers
            rw [hp, hm]
            exact hold.1
          · show s2.idle = []
            rw [hidle]
            exact hold.2
        next hqq =>
          intro hne
          exact absurd hqq hne
      cases hl : lookupW s.pending w with
      | none => exact hrel _ rfl rfl rfl rfl
      | some c0 =>
        simp only [hl]
        exact hrel _ rfl rfl rfl rfl
    · simpa only [if_neg hb] using h1
  | error w =>
    simp only [step]
    by_cases hp : w ∈ s.pool
    · simp only [if_pos hp]
      cases hl : lookupW s.pending w with
      | none => exact h1
      | some c0 =>
        simp only [hl]
        intro hne
        exact h1 hne
    · simpa only [if_neg hp] using h1
  | exit w code => exact absurd rfl (he w code)

/-! ## Claim C1 -/

/-- C1 is false as stated: a worker that exits cleanly (code 0) while its
job is outstanding settles the caller zero times, not exactly once.  From
a fresh pool of capacity 1, one `submit` spawns worker 0 and leaves caller
0's settlement pending on it; when worker 0 then fires `exit` with code 0,
the exit handler removes the worker but — because the code is zero —
never rejects, and no event can ever settle caller 0 afterwards. -/
theorem submit_zero_settlements_counterexample :
    (runEvents (initPool 1) [Ev.submit]).pending = [(0, 0)] ∧
    (runEvents (initPool 1) [Ev.submit]).busy = [0] ∧
    settleCount (runEvents (initPool 1) [Ev.submit, Ev.exit 0 0]) 0 = 0 ∧
    neverSettles (runEvents (initPool 1) [Ev.submit, Ev.exit 0 0]) 0 := by
  refine ⟨by decide, by decide, by decide, ?_⟩
  intro evs
  have hd : DeadFor (runEvents (initPool 1) [Ev.submit, Ev.exit 0 0]) 0 := by
    decide
  rw [deadFor_runEvents hd evs]
  decide

/-- C1 (amended): every submitted job is settled at most once — never
twice — and the settlement is delivered whenever the serving worker posts
a response, fires an `error` event, or exits with a nonzero code while
the settlement is pending; but a job can be settled zero times (clean
exit while outstanding, or still queued when the pool's workers exit). -/
theorem submit_at_most_once_settlement :
    (∀ m evs c, settleCount (runEvents (initPool m) evs) c ≤ 1) ∧
    (∀ (s : PoolState) (w c : Nat) (ok : Bool), w ∈ s.busy →
      lookupW s.pending w = some c →
      (step s (Ev.message w ok)).settled =
        (c, if ok then SettleKind.success else SettleKind.execError)
          :: s.settled) ∧
    (∀ (s : PoolState) (w c : Nat), w ∈ s.pool →
      lookupW s.pending w = some c →
      (step s (Ev.error w)).settled =
        (c, SettleKind.errorEvent) :: s.settled) ∧
    (∀ (s : PoolState) (w c code : Nat), w ∈ s.pool → code ≠ 0 →
      lookupW s.pending w = some c →
      (step s (Ev.exit w code)).settled =
        (c, SettleKind.crash code) :: s.settled) := by
  refine ⟨settle_at_most_once, ?_, ?_, ?_⟩
  · intro s w c ok hb hl
    simp only [step, if_pos hb, hl, releaseWorker_settled]
  · intro s w c hp hl
    simp only [step, if_pos hp, hl]
  · intro s w c code hp hz hl
    have hl' : lookupW (removeWorker s w).pending w = some c := hl
    simp only [step, if_pos hp, if_pos hz, hl']
    rfl

/-- Witness for the amended C1 at concrete inputs. -/
theorem submit_at_most_once_settlement_witness :
    settleCount (runEvents (initPool 2) [Ev.submit, Ev.message 0 true]) 0
        ≤ 1 ∧
    (step (runEvents (initPool 1) [Ev.submit]) (Ev.message 0 true)).settled
        = [(0, SettleKind.success)] ∧
    (step (runEvents (initPool 1) [Ev.submit]) (Ev.error 0)).settled
        = [(0, SettleKind.errorEvent)] ∧
    (step (runEvents (initPool 1) [Ev.submit]) (Ev.exit 0 1)).settled
        = [(0, SettleKind.crash 1)] := by
  refine ⟨submit_at_most_once_settlement.1 2 _ 0, ?_, ?_, ?_⟩
  · rw [submit_at_most_once_settlement.2.1 _ 0 0 true (by decide) (by decide)]
    decide
  · rw [submit_at_most_once_settlement.2.2.1 _ 0 0 (by decide) (by decide)]
    decide
  · rw [submit_at_most_once_settlement.2.2.2 _ 0 0 1 (by decide) (by decide)
      (by decide)]
    decide

/-! ## Claim C3 -/

/-- C3: over every event sequence (hence at every point of any sequence
of concurrent submits) a pool of positive capacity holds at most
`maxWorkers` live workers, and `submit` spawns a worker only when the
live set is strictly below capacity — at or above it, the live set is
left unchanged. -/
theorem pool_at_most_capacity :
    (∀ m, 0 < m → ∀ evs, (runEvents (initPool m) evs).pool.length ≤ m) ∧
    (∀ s : PoolState, s.maxWorkers ≤ s.pool.length →
      (step s Ev.submit).pool = s.pool) := by
  constructor
  · intro m _ evs
    have h := runEvents_pool_le (s := initPool m) (by simp [initPool]) evs
    rwa [runEvents_maxWorkers] at h
  · intro s h
    cases hi : s.idle with
    | cons w rest => simp only [step, hi]
    | nil =>
      simp only [step, hi, if_neg (by omega : ¬ s.pool.length < s.maxWorkers)]

/-- Witness for C3 at concrete inputs. -/
theorem pool_at_most_capacity_witness :
    (runEvents (initPool 1) [Ev.submit, Ev.submit, Ev.submit]).pool.length
        ≤ 1 ∧
    (step (runEvents (initPool 1) [Ev.submit]) Ev.submit).pool =
      (runEvents (initPool 1) [Ev.submit]).pool := by
  refine ⟨pool_at_most_capacity.1 1 (by decide) _,
    pool_at_most_capacity.2 _ (by decide)⟩

/-! ## Claim C4 -/

/-- C4: `getAvailableWorker` follows exactly the priority order idle →
spawn → enqueue.  With an idle worker available, the head of the idle
list is removed and handed to the caller (no spawn, queue untouched);
otherwise, below capacity, a fresh worker is spawned, appended to the
live set and handed over; otherwise the caller is appended to the waiting
queue and receives no worker. -/
theorem getAvailableWorker_priority (s : PoolState) :
    (∀ w rest, s.idle = w :: rest →
      (step s Ev.submit).idle = rest ∧
      lookupW (step s Ev.submit).pending w = some s.nextC ∧
      (step s Ev.submit).pool = s.pool ∧
      (step s Ev.submit).queue = s.queue ∧
      (step s Ev.submit).nextW = s.nextW) ∧
    (s.idle = [] → s.pool.length < s.maxWorkers →
      (step s Ev.submit).pool = s.pool ++ [s.nextW] ∧
      lookupW (step s Ev.submit).pending s.nextW = some s.nextC ∧
      (step s Ev.submit).queue = s.queue ∧
      (step s Ev.submit).idle = []) ∧
    (s.idle = [] → s.maxWorkers ≤ s.pool.length →
      (step s Ev.submit).queue = s.queue ++ [s.nextC] ∧
      (step s Ev.submit).pool = s.pool ∧
      (step s Ev.submit).pending = s.pending ∧
      (step s Ev.submit).idle = []) := by
  refine ⟨?_, ?_, ?_⟩
  · intro w rest hi
    simp [step, hi, lookupW]
  · intro hi hlt
    simp [step, hi, if_pos hlt, lookupW]
  · intro hi hge
    simp [step, hi, if_neg (by omega : ¬ s.pool.length < s.maxWorkers)]

/-- Witness for C4 at concrete states. -/
theorem getAvailableWorker_priority_witness :
    ((step (runEvents (initPool 1) [Ev.submit, Ev.message 0 true])
        Ev.submit).idle = [] ∧
      lookupW (step (runEvents (initPool 1) [Ev.submit, Ev.message 0 true])
        Ev.submit).pending 0 = some 1) ∧
    (step (initPool 1) Ev.submit).pool = [0] ∧
    (step (runEvents (initPool 1) [Ev.submit]) Ev.submit).queue = [1] := by
  have h1 := (getAvailableWorker_priority
    (runEvents (initPool 1) [Ev.submit, Ev.message 0 true])).1 0 []
    (by decide)
  have h2 := (getAvailableWorker_priority (initPool 1)).2.1 (by decide)
    (by decide)
  have h3 := (getAvailableWorker_priority
    (runEvents (initPool 1) [Ev.submit])).2.2 (by decide) (by decide)
  exact ⟨⟨h1.1, h1.2.1⟩, by rw [h2.1]; decide, by rw [h3.1]; decide⟩

/-! ## Claim C5 -/

/-- C5: the release policy.  When a worker finishes and the waiting queue
is non-empty, the oldest waiter (the head, removed by `shift`) is handed
the worker directly — the idle list is untouched, so the worker never
passes through it; with an empty queue, the worker is pushed onto the
idle list.  Successive releases therefore serve waiters head-first, in
FIFO order. -/
theorem releaseWorker_policy (s : PoolState) (w : Nat) (ok : Bool) :
    (∀ c q, s.queue = c :: q →
      (releaseWorker s w).queue = q ∧
      lookupW (releaseWorker s w).pending w = some c ∧
      (releaseWorker s w).idle = s.idle) ∧
    (s.queue = [] →
      (releaseWorker s w).idle = s.idle ++ [w] ∧
      (releaseWorker s w).pending = s.pending ∧
      (releaseWorker s w).queue = []) ∧
    (∀ c q, s.queue = c :: q → w ∈ s.busy →
      (step s (Ev.message w ok)).queue = q ∧
      lookupW (step s (Ev.message w ok)).pending w = some c ∧
      (step s (Ev.message w ok)).idle = s.idle) := by
  refine ⟨?_, ?_, ?_⟩
  · intro c q hq
    unfold releaseWorker
    rw [hq]
    simp [lookupW]
  · intro hq
    unfold releaseWorker
    rw [hq]
    simp
  · intro c q hq hb
    simp only [step, if_pos hb]
    cases hl : lookupW s.pending w with
    | none =>
      simp only [hl]
      unfold releaseWorker
      rw [(by exact hq : ({ s with busy := s.busy.erase w } : PoolState).queue
        = c :: q)]
      simp [lookupW]
    | some c0 =>
      simp only [hl]
      unfold releaseWorker
      rw [(by exact hq : ({ s with
        busy := s.busy.erase w
        settled := (c0, if ok then SettleKind.success else
          SettleKind.execError) :: s.settled
        pending := eraseW s.pending w } : PoolState).queue = c :: q)]
      simp [lookupW]

/-- Witness for C5 at a concrete saturated state. -/
theorem releaseWorker_policy_witness :
    ((releaseWorker (runEvents (initPool 1) [Ev.submit, Ev.submit]) 0).queue
        = [] ∧
      lookupW (releaseWorker
        (runEvents (initPool 1) [Ev.submit, Ev.submit]) 0).pending 0
        = some 1) ∧
    (releaseWorker (runEvents (initPool 1) [Ev.submit]) 0).idle = [0] ∧
    (step (runEvents (initPool 1) [Ev.submit, Ev.submit])
        (Ev.message 0 true)).queue = [] := by
  have h1 := (releaseWorker_policy
    (runEvents (initPool 1) [Ev.submit, Ev.submit]) 0 true).1 1 []
    (by decide)
  have h2 := (releaseWorker_policy (runEvents (initPool 1) [Ev.submit]) 0
    true).2.1 (by decide)
  have h3 := (releaseWorker_policy
    (runEvents (initPool 1) [Ev.submit, Ev.submit]) 0 true).2.2 1 []
    (by decide) (by decide)
  exact ⟨⟨h1.1, h1.2.1⟩, by rw [h2.1]; decide, h3.1⟩

/-! ## Claim C8 -/

/-- C8: a bare `error` event while a settlement is pending rejects the
pending caller with the error's cause and clears the pending settlement,
but runs no release policy: the idle list, waiting queue and busy set are
untouched, so the worker is neither pushed onto the idle list nor handed
to a queued waiter. -/
theorem errorEvent_no_release (s : PoolState) (w c : Nat)
    (hw : w ∈ s.pool) (hl : lookupW s.pending w = some c)
    (hnd : (s.pending.map Prod.fst).Nodup) :
    (step s (Ev.error w)).settled = (c, SettleKind.errorEvent) :: s.settled ∧
    lookupW (step s (Ev.error w)).pending w = none ∧
    (step s (Ev.error w)).idle = s.idle ∧
    (step s (Ev.error w)).queue = s.queue ∧
    (step s (Ev.error w)).busy = s.busy ∧
    (step s (Ev.error w)).pool = s.pool := by
  simp only [step, if_pos hw, hl]
  exact ⟨by trivial, lookupW_eraseW_of_nodup hnd, by trivial, by trivial,
    by trivial, by trivial⟩

/-- Witness for C8 at a concrete state. -/
theorem errorEvent_no_release_witness :
    (step (runEvents (initPool 1) [Ev.submit]) (Ev.error 0)).settled
        = [(0, SettleKind.errorEvent)] ∧
    lookupW (step (runEvents (initPool 1) [Ev.submit])
        (Ev.error 0)).pending 0 = none ∧
    (step (runEvents (initPool 1) [Ev.submit]) (Ev.error 0)).idle = [] := by
  have h := errorEvent_no_release (runEvents (initPool 1) [Ev.submit]) 0 0
    (by decide) (by decide) (by decide)
  exact ⟨by rw [h.1]; decide, h.2.1, by rw [h.2.2.1]; decide⟩

/-! ## Claim C6 -/

/-- C6 is false as stated: the queue invariant is not preserved by the
`exit` handler.  With capacity 1, a first `submit` spawns worker 0, a
second is enqueued (at that point the invariant holds: live set full,
idle empty); worker 0 then crashes (`exit` code 1) and `removeWorker`
empties the live set while the waiting queue still holds caller 1. -/
theorem queue_invariant_counterexample :
    (runEvents (initPool 1) [Ev.submit, Ev.submit, Ev.exit 0 1]).queue
        = [1] ∧
    (runEvents (initPool 1) [Ev.submit, Ev.submit, Ev.exit 0 1]).pool
        = [] ∧
    (runEvents (initPool 1)
        [Ev.submit, Ev.submit, Ev.exit 0 1]).maxWorkers = 1 ∧
    ¬ QueueInv (runEvents (initPool 1) [Ev.submit, Ev.submit, Ev.exit 0 1])
    := by
  refine ⟨by decide, by decide, by decide, ?_⟩
  intro h
  have := h (by decide)
  revert this
  decide

/-- C6 (amended): in every reachable pool state the waiting queue is
non-empty only when the live set holds exactly `maxWorkers` workers and
the idle list is empty, and this invariant is preserved by `submit`,
`message` and `error` events; a worker's `exit` event (which removes it
from the live set without serving the queue) can break it. -/
theorem queue_invariant_no_exit (m : Nat) (evs : List Ev)
    (he : ∀ e ∈ evs, ∀ w code, e ≠ Ev.exit w code) :
    QueueInv (runEvents (initPool m) evs) := by
  have main : ∀ (evs : List Ev) (s : PoolState), QueueInv s →
      s.pool.length ≤ s.maxWorkers →
      (∀ e ∈ evs, ∀ w code, e ≠ Ev.exit w code) →
      QueueInv (runEvents s evs) := by
    intro evs
    induction evs with
    | nil => intro s h1 _ _; exact h1
    | cons e r ih =>
      intro s h1 h2 h3
      exact ih (step s e)
        (queueInv_step_no_exit h1 h2 (h3 e (List.mem_cons_self _ _)))
        (step_pool_le h2 e)
        (fun e' hm => h3 e' (List.mem_cons_of_mem _ hm))
  exact main evs (initPool m) (fun h => absurd rfl h)
    (by simp [initPool]) he

/-- Witness for the amended C6 at a concrete saturated trace. -/
theorem queue_invariant_no_exit_witness :
    (runEvents (initPool 1) [Ev.submit, Ev.submit]).pool.length = 1 ∧
    (runEvents (initPool 1) [Ev.submit, Ev.submit]).idle = [] := by
  have h := queue_invariant_no_exit 1 [Ev.submit, Ev.submit] (by
    intro e he w code
    have hes : e = Ev.submit := by
      rcases List.mem_cons.mp he with h1 | h1
      · exact h1
      · exact List.mem_singleton.mp h1
    simp [hes])
  exact h (by decide)

/-! ## Batch admission lemmas -/

theorem earliestTask_split {l : List Task} {e : Task}
    (h : earliestTask l = some e) :
    ∃ l1 l2, l = l1 ++ e :: l2 ∧ ∀ x ∈ l1, e.2.1 < x.2.1 := by
  induction l with
  | nil => simp [earliestTask] at h
  | cons a r ih =>
    cases hr : earliestTask r with
    | none =>
      have h' : some a = some e := by
        simpa only [earliestTask, hr] using h
      obtain rfl := Option.some.inj h'
      exact ⟨[], r, rfl, by simp⟩
    | some e' =>
      have h' : (if e'.2.1 < a.2.1 then some e' else some a) = some e := by
        simpa only [earliestTask, hr] using h
      by_cases hlt : e'.2.1 < a.2.1
      · rw [if_pos hlt] at h'
        obtain rfl := Option.some.inj h'
        obtain ⟨l1, l2, heq, hall⟩ := ih hr
        refine ⟨a :: l1, l2, by simp [heq], ?_⟩
        intro x hx
        rcases List.mem_cons.mp hx with h1 | h1
        · rw [h1]
          exact hlt
        · exact hall x h1
      · rw [if_neg hlt] at h'
        obtain rfl := Option.some.inj h'
        exact ⟨[], r, rfl, by simp⟩

theorem find?_append_of_forall_not {p : Task → Bool} {l1 : List Task}
    (l2 : List Task) {e : Task} (h1 : ∀ x ∈ l1, p x = false)
    (h2 : p e = true) : (l1 ++ e :: l2).find? p = some e := by
  induction l1 with
  | nil => simp [List.find?_cons, h2]
  | cons a r ih =>
    have ha := h1 a (List.mem_cons_self _ _)
    simp only [List.cons_append, List.find?_cons, ha]
    exact ih fun x hx => h1 x (List.mem_cons_of_mem _ hx)

theorem admitLoop_none_props (limit : Nat) (jobs : List (Nat × BatchJob)) :
    ∀ infl now,
      abortCount (admitLoop limit jobs infl none now).2 ≤ 1 ∧
      noStartAfterAbort (admitLoop limit jobs infl none now).2 = true ∧
      ∀ c t, (admitLoop limit jobs infl none now).1 =
          BatchResult.failed c t →
        BEv.abortSet c t ∈ (admitLoop limit jobs infl none now).2 := by
  induction jobs with
  | nil =>
    intro infl now
    simp only [admitLoop, drainAll]
    split
    next e hf =>
      refine ⟨by simp [abortCount], by simp [noStartAfterAbort, startFree],
        ?_⟩
      intro c t h
      obtain ⟨rfl, rfl⟩ : e.1 = c ∧ e.2.1 = t := by
        cases h
        exact ⟨rfl, rfl⟩
      simp
    next hf =>
      refine ⟨by simp [abortCount], by simp [noStartAfterAbort], ?_⟩
      intro c t h
      exact absurd h (by simp)
  | cons ij rest ih =>
    obtain ⟨i, j⟩ := ij
    intro infl now
    simp only [admitLoop]
    by_cases hlim :
        limit ≤ (infl ++ [(i, now + j.dur, j.fails)]).length
    · simp only [if_pos hlim]
      split
      next hw =>
        refine ⟨by simp [abortCount], by simp [noStartAfterAbort], ?_⟩
        intro c t h
        exact absurd h (by simp)
      next win hw =>
        by_cases hwf : win.2.2 = true
        · rw [if_pos hwf]
          obtain ⟨l1, l2, heq, hall⟩ := earliestTask_split hw
          have hfind : ((infl ++ [(i, now + j.dur, j.fails)]).find?
              fun e => e.2.1 = win.2.1 && e.2.2) = some win := by
            rw [heq]
            refine find?_append_of_forall_not l2 ?_ (by simp [hwf])
            intro x hx
            have hxt := hall x hx
            simp only [Bool.and_eq_false_iff]
            left
            simp only [decide_eq_false_iff_not]
            omega
          simp only [processAt, hfind, Option.map_some']
          refine ⟨by simp [abortCount], by
            simp [noStartAfterAbort, startFree], ?_⟩
          intro c t h
          obtain ⟨rfl, rfl⟩ : win.1 = c ∧ win.2.1 = t := by
            cases h
            exact ⟨rfl, rfl⟩
          simp
        · rw [if_neg hwf]
          cases hpa : ((infl ++ [(i, now + j.dur, j.fails)]).find?
              fun e => e.2.1 = win.2.1 && e.2.2) with
          | some fe =>
            simp only [processAt, hpa, Option.map_some']
            refine ⟨by simp [abortCount], by
              simp [noStartAfterAbort, startFree], ?_⟩
            intro c t h
            obtain ⟨rfl, rfl⟩ : fe.1 = c ∧ win.2.1 = t := by
              cases h
              exact ⟨rfl, rfl⟩
            simp
          | none =>
            simp only [processAt, hpa, Option.map_none']
            have hrec := ih ((infl ++
              [(i, now + j.dur, j.fails)]).filter
                fun e => !(e.2.1 = win.2.1 && !e.2.2)) win.2.1
            refine ⟨?_, ?_, ?_⟩
            · simpa [abortCount] using hrec.1
            · simpa [noStartAfterAbort] using hrec.2.1
            · intro c t h
              have hmem := hrec.2.2 c t h
              simp only [List.nil_append, List.mem_cons]
              right
              exact hmem
    · simp only [if_neg hlim]
      have hrec := ih (infl ++ [(i, now + j.dur, j.fails)]) now
      refine ⟨?_, ?_, ?_⟩
      · simpa [abortCount] using hrec.1
      · simpa [noStartAfterAbort] using hrec.2.1
      · intro c t h
        have hmem := hrec.2.2 c t h
        exact List.mem_cons_of_mem _ hmem

/-! ## Claim C2 -/

/-- C2 is false as stated: the batch does not drain in-flight jobs before
failing.  With jobs A = ⟨10, ok⟩ and B = ⟨5, fails⟩ under limit 2, both
start at time 0; the loop suspends at `Promise.race`, observes B's
rejection at time 5 and throws it at once — the batch settles with B's
cause at time 5, while the already-started in-flight job A (started at 0,
settling at 0 + 10 = 10) is still outstanding.  The failure is thrown
before, not after, the drain. -/
theorem batch_fails_before_drain_counterexample :
    (runBatch [⟨10, false⟩, ⟨5, true⟩] 2).1 = BatchResult.failed 1 5 ∧
    startTimeOf (runBatch [⟨10, false⟩, ⟨5, true⟩] 2).2 0 = some 0 ∧
    (5 : Nat) < 0 + 10 := by
  decide

/-- C2 (amended): when a job fails, the cancellation flag is set at most
once, recording the failure's cause; no job thunk is started after the
flag is set; and the batch fails with the recorded cause — but the
failure is thrown as soon as it is observed at an await point, which can
be before already-started in-flight jobs have settled (their I/O is
instead cancelled through the abort signal). -/
theorem batch_first_failure_amended (jobs : List BatchJob) (limit : Nat) :
    abortCount (runBatch jobs limit).2 ≤ 1 ∧
    noStartAfterAbort (runBatch jobs limit).2 = true ∧
    ∀ c t, (runBatch jobs limit).1 = BatchResult.failed c t →
      BEv.abortSet c t ∈ (runBatch jobs limit).2 :=
  admitLoop_none_props limit jobs.enum [] 0

/-- Witness for the amended C2 on a concrete failing batch. -/
theorem batch_first_failure_amended_witness :
    abortCount (runBatch [⟨10, false⟩, ⟨5, true⟩] 2).2 ≤ 1 ∧
    noStartAfterAbort (runBatch [⟨10, false⟩, ⟨5, true⟩] 2).2 = true ∧
    BEv.abortSet 1 5 ∈ (runBatch [⟨10, false⟩, ⟨5, true⟩] 2).2 := by
  have h := batch_first_failure_amended [⟨10, false⟩, ⟨5, true⟩] 2
  exact ⟨h.1, h.2.1, h.2.2 1 5 (by decide)⟩

/-! ## Claim C7 -/

/-- C7: `minifyHTMLFile` writes back exactly when the minified output is
strictly smaller in bytes than the original; when savings are not
positive it returns the "no savings" sentinel, the file content is
unchanged and no write occurs. -/
theorem minifyHTMLFile_write_iff
    (minify : List Nat → Except String (List Nat)) (content m : List Nat)
    (h : minify content = Except.ok m) :
    ∀ outcome, minifyHTMLFile minify content = Except.ok outcome →
      (outcome.wrote = true ↔ m.length < content.length) ∧
      (m.length < content.length →
        outcome.content = m ∧
        outcome.result = MinifyHTMLFileResult.saved
          (content.length - m.length)) ∧
      (content.length ≤ m.length →
        outcome.result = MinifyHTMLFileResult.noSavings ∧
        outcome.content = content ∧ outcome.wrote = false) := by
  intro outcome houtcome
  simp only [minifyHTMLFile, h] at houtcome
  by_cases hle : (content.length : Int) - (m.length : Int) ≤ 0
  · rw [if_pos hle] at houtcome
    obtain rfl := Except.ok.inj houtcome
    refine ⟨by simp; omega, by intro h1; omega, fun _ => ⟨rfl, rfl, rfl⟩⟩
  · rw [if_neg hle] at houtcome
    obtain rfl := Except.ok.inj houtcome
    refine ⟨by simp; omega, fun h1 => ⟨rfl, ?_⟩, by intro h1; omega⟩
    have : ((content.length : Int) - (m.length : Int)).toNat =
        content.length - m.length := by omega
    simp [this]

/-- Witness for C7: the theorem applied to a shrinking and a growing
minifier at concrete byte lists. -/
theorem minifyHTMLFile_write_iff_witness :
    ((⟨MinifyHTMLFileResult.saved 2, [7], true⟩ :
        MinifyFileOutcome).wrote = true ↔
      ([7] : List Nat).length < ([7, 8, 9] : List Nat).length) ∧
    ((⟨MinifyHTMLFileResult.noSavings, [7, 8, 9], false⟩ :
        MinifyFileOutcome).result = MinifyHTMLFileResult.noSavings ∧
      (⟨MinifyHTMLFileResult.noSavings, [7, 8, 9], false⟩ :
        MinifyFileOutcome).content = [7, 8, 9] ∧
      (⟨MinifyHTMLFileResult.noSavings, [7, 8, 9], false⟩ :
        MinifyFileOutcome).wrote = false) := by
  have h1 := minifyHTMLFile_write_iff (fun l => Except.ok (l.take 1))
    [7, 8, 9] [7] rfl ⟨MinifyHTMLFileResult.saved 2, [7], true⟩ (by rfl)
  have h2 := minifyHTMLFile_write_iff (fun l => Except.ok (l ++ [0]))
    [7, 8, 9] [7, 8, 9, 0] rfl
    ⟨MinifyHTMLFileResult.noSavings, [7, 8, 9], false⟩ (by rfl)
  exact ⟨h1.1, h2.2.2 (by decide)⟩

/-! ## Claim C9 -/

/-- C9 is false as stated for the file-granular worker: on success,
`src/minify-html-worker.ts` posts the bare `MinifyHTMLFileResult` value
— here the `false` "no savings" sentinel — with no `{result: T}` tag.
The posted message is untagged. -/
theorem worker_response_untagged_counterexample :
    minifyHTMLWorkerOnMessage (E := String)
        (fun _ => Except.ok MinifyHTMLFileResult.noSavings) "/dist/a.html"
      = [WorkerMsg.raw MinifyHTMLFileResult.noSavings] ∧
    WorkerMsg.isTagged (E := String)
      (WorkerMsg.raw MinifyHTMLFileResult.noSavings) = false :=
  ⟨rfl, rfl⟩

/-- C9 (amended): each worker message handler posts exactly one response
per request and catches every exception of the minification routine,
posting it as the `{error}` shape; the generic worker tags success as
`{result}`, while the file-granular worker posts the success payload
untagged (it is distinguished only by the absence of the `error` tag). -/
theorem worker_one_tagged_response (I E T : Type)
    (minify : I → Except E T) (req : I)
    (run : String → Except E MinifyHTMLFileResult) (htmlFile : String) :
    (genericWorkerOnMessage minify req).length = 1 ∧
    (∀ v, minify req = Except.ok v →
      genericWorkerOnMessage minify req = [WorkerMsg.result v]) ∧
    (∀ e, minify req = Except.error e →
      genericWorkerOnMessage minify req = [WorkerMsg.error e]) ∧
    (minifyHTMLWorkerOnMessage run htmlFile).length = 1 ∧
    (∀ v, run htmlFile = Except.ok v →
      minifyHTMLWorkerOnMessage run htmlFile = [WorkerMsg.raw v]) ∧
    (∀ e, run htmlFile = Except.error e →
      minifyHTMLWorkerOnMessage run htmlFile = [WorkerMsg.error e]) := by
  refine ⟨?_, ?_, ?_, ?_, ?_, ?_⟩
  · unfold genericWorkerOnMessage
    cases minify req <;> rfl
  · intro v hv
    unfold genericWorkerOnMessage
    rw [hv]
  · intro e he
    unfold genericWorkerOnMessage
    rw [he]
  · unfold minifyHTMLWorkerOnMessage
    cases run htmlFile <;> rfl
  · intro v hv
    unfold minifyHTMLWorkerOnMessage
    rw [hv]
  · intro e he
    unfold minifyHTMLWorkerOnMessage
    rw [he]

/-- Witness for the amended C9 at concrete minifiers. -/
theorem worker_one_tagged_response_witness :
    genericWorkerOnMessage (fun n : Nat => Except.ok (ε := String) (n + 1))
        41 = [WorkerMsg.result 42] ∧
    genericWorkerOnMessage
        (fun _ : Nat => Except.error (α := Nat) "parse") 0
      = [WorkerMsg.error "parse"] ∧
    minifyHTMLWorkerOnMessage (E := String)
        (fun _ => Except.ok MinifyHTMLFileResult.noSavings) "/a.html"
      = [WorkerMsg.raw MinifyHTMLFileResult.noSavings] := by
  have h1 := worker_one_tagged_response Nat String Nat
    (fun n : Nat => Except.ok (n + 1)) 41
    (fun _ => Except.ok MinifyHTMLFileResult.noSavings) "/a.html"
  have h2 := worker_one_tagged_response Nat String Nat
    (fun _ : Nat => Except.error "parse") 0
    (fun _ => Except.ok MinifyHTMLFileResult.noSavings) "/a.html"
  exact ⟨h1.2.1 42 rfl, h2.2.2.1 "parse" rfl,
    h1.2.2.2.2.1 MinifyHTMLFileResult.noSavings rfl⟩

/-! ## Claim C10 -/

/-- C10: when the resolved `maxWorkers` is not positive or the minifier
options are not structured-cloneable, no worker pool is constructed and
every HTML file is minified on the main thread via the direct
`minifyHTMLFile` path; an omitted `maxWorkers` defaults to
`Math.max(1, availableParallelism - 1)`. -/
theorem no_pool_main_thread_path
    (maxWorkersOption : Option Int) (availableParallelism : Int)
    (transferable : Bool) (files : List String)
    (h : resolveMaxWorkers maxWorkersOption availableParallelism ≤ 0 ∨
      transferable = false) :
    (∀ p ∈ taskPaths files maxWorkersOption availableParallelism
        transferable, p.2 = MinifyPath.mainThread) ∧
    (∀ ap : Int, resolveMaxWorkers none ap = max 1 (ap - 1)) := by
  constructor
  · have hfalse : createsWorkerPool maxWorkersOption availableParallelism
        transferable = false := by
      unfold createsWorkerPool
      rcases h with h | h
      · simp [decide_eq_false (by omega : ¬ 0 <
          resolveMaxWorkers maxWorkersOption availableParallelism)]
      · simp [h]
    intro p hp
    unfold taskPaths at hp
    obtain ⟨f, _, rfl⟩ := List.mem_map.mp hp
    simp [hfalse]
  · intro ap
    rfl

/-- Witness for C10: `maxWorkers = 0` forces the main-thread path, and
the omitted-option default evaluates as specified. -/
theorem no_pool_main_thread_path_witness :
    (∀ p ∈ taskPaths ["/dist/a.html", "/dist/b.html"] (some 0) 8 true,
      p.2 = MinifyPath.mainThread) ∧
    resolveMaxWorkers none 8 = 7 := by
  have h := no_pool_main_thread_path (some 0) 8 true
    ["/dist/a.html", "/dist/b.html"] (Or.inl (by decide))
  exact ⟨h.1, by decide⟩

end AstroHtmlMinifier
